import Mathlib

/-!
Shallow embedding of the line-pairing word-diff formatter of
src/index.tsx (the StructuredDiff / FileEditPreview components).

JavaScript strings are modelled as lists of characters (in the source all
string operations used are character-based: startsWith with a one-character
needle, slice(1), concatenation, length, padStart).  Numbers reaching the
formatter are non-negative (1-based line numbers that are only incremented),
so they are modelled as Nat.  The external word-diff collaborator
diffWordsWithSpace (from the npm package diff) is a parameter of the
embedding; a small concrete instance is provided for evaluation.
-/

namespace OpentuiDiff

/-- JavaScript strings, modelled as lists of characters. -/
abbrev Str := List Char

/-- Coercion from Lean string literals into the model. -/
def str (s : String) : Str := s.data

/-- The three line classifications of the formatter:
"add", "remove", "nochange" in the source. -/
inductive LineType
  | add
  | remove
  | nochange
  deriving DecidableEq, Repr, Inhabited

/-- Result of classifying one raw diff line (the objects produced by the
lines.map at the top of formatDiff). -/
structure ProcessedLine where
  code : Str
  type : LineType
  originalCode : Str
  deriving DecidableEq, Repr, Inhabited

/-- One element of the word-level diff returned by the external
diffWordsWithSpace collaborator. -/
structure WordDiffPart where
  value : Str
  added : Bool := false
  removed : Bool := false
  deriving DecidableEq, Repr

/-- One entry of the linePairs array: indices of a removed line and the
added line chosen for its word-level diff. -/
structure LinePair where
  remove : Nat
  add : Nat
  deriving DecidableEq, Repr

/-- A styled text span of a rendered row.  marker is the leading plus or
minus Text element; plain is text with no emphasis background; emphRemoved and
emphAdded are the spans rendered with backgroundColor removed / added. -/
inductive Segment
  | marker (text : Str)
  | plain (value : Str)
  | emphRemoved (value : Str)
  | emphAdded (value : Str)
  deriving DecidableEq, Repr

/-- A row of the result array built inside formatDiff, before the final
padding pass: its content segments, its type and its raw line number. -/
structure Row where
  code : List Segment
  type : LineType
  lineNumber : Nat
  deriving DecidableEq, Repr

/-- A final display row: the padded line-number text plus the data of the
underlying row. -/
structure DisplayRow where
  lineNumberText : Str
  lineNumber : Nat
  type : LineType
  code : List Segment
  deriving DecidableEq, Repr

/-- A hunk as consumed by StructuredDiff: the fields of a structuredPatch
hunk that the component reads. -/
structure Hunk where
  oldStart : Nat
  newStart : Nat
  lines : List Str
  deriving DecidableEq, Repr

/-- JavaScript String.prototype.startsWith for a one-character needle:
true iff the string is non-empty and its first character is c. -/
def startsWith (code : Str) (c : Char) : Bool :=
  match code with
  | [] => false
  | d :: _ => d == c

/-- The classifier at the top of formatDiff: a leading + gives type add, a
leading - gives type remove (both with the marker replaced by a space),
anything else is nochange with the text unchanged. -/
def processLine (code : Str) : ProcessedLine :=
  if startsWith code '+' then
    { code := ' ' :: code.drop 1, type := .add, originalCode := code }
  else if startsWith code '-' then
    { code := ' ' :: code.drop 1, type := .remove, originalCode := code }
  else
    { code := code, type := .nochange, originalCode := code }

/-- The while loop of the pairer: starting from index j, skip every
consecutive line of type remove and return the first index not skipped. -/
def skipRemoves (pls : List ProcessedLine) (j : Nat) : Nat :=
  j + ((pls.drop j).takeWhile (fun pl => pl.type == .remove)).length

/-- The body of the pairing loop at index i: if line i is a removed line,
look ahead past further removed lines; if the first non-removed line that
follows exists and is an added line at index j, produce the pair (i, j). -/
def pairAt (pls : List ProcessedLine) (i : Nat) : Option LinePair :=
  if (pls.getD i default).type == .remove then
    match pls[skipRemoves pls (i + 1)]? with
    | some plj =>
      if plj.type == .add then some ⟨i, skipRemoves pls (i + 1)⟩ else none
    | none => none
  else none

/-- The linePairs construction: the pairing loop body applied at every
index of the processed lines, collecting the produced pairs in order. -/
def findPairs (pls : List ProcessedLine) : List LinePair :=
  (List.range pls.length).filterMap (pairAt pls)

/-- Rendering of one word-diff part inside a paired removed row: removed
parts get the removed emphasis background, every other part is plain. -/
def renderRemovedPart (part : WordDiffPart) : Segment :=
  if part.removed then .emphRemoved part.value else .plain part.value

/-- Rendering of one word-diff part inside a paired added row: added parts
get the added emphasis background, every other part is plain. -/
def renderAddedPart (part : WordDiffPart) : Segment :=
  if part.added then .emphAdded part.value else .plain part.value

/-- Rendering of a line that is not part of a word-diff pair: added and
removed lines get their marker plus the whole line, context lines are the
text preceded by a space. -/
def renderRegular (pl : ProcessedLine) : List Segment :=
  match pl.type with
  | .add => [.marker (str "+"), .plain pl.code]
  | .remove => [.marker (str "-"), .plain pl.code]
  | .nochange => [.plain (' ' :: pl.code)]

/-- The body of the emission loop for index i: find the pair touching i;
a pair with remove = i gives the word-diff removed row, a pair with
add = i gives the word-diff added row, otherwise the regular rendering. -/
def mkRowCode (wd : Str → Str → List WordDiffPart) (pls : List ProcessedLine)
    (pairs : List LinePair) (i : Nat) (pl : ProcessedLine) : List Segment :=
  match pairs.find? (fun p => p.remove == i || p.add == i) with
  | some pair =>
    if pair.remove = i then
      let removedText := (pls.getD i default).code
      let addedText := (pls.getD pair.add default).code
      .marker (str "-") :: (wd removedText addedText).map renderRemovedPart
    else if pair.add = i then
      let removedText := (pls.getD pair.remove default).code
      let addedText := (pls.getD i default).code
      .marker (str "+") :: (wd removedText addedText).map renderAddedPart
    else renderRegular pl
  | none => renderRegular pl

/-- The main loop of formatDiff: one row per processed line, carrying the
running line number, which is incremented after emitting a nochange or add
row and left unchanged after a remove row.  The loop is modelled by
structural recursion on the remaining lines, with i the index of the head
in the full list pls. -/
def emitRows (wd : Str → Str → List WordDiffPart) (pls : List ProcessedLine)
    (pairs : List LinePair) : List ProcessedLine → Nat → Nat → List Row
  | [], _, _ => []
  | pl :: rest, i, lineNumber =>
    { code := mkRowCode wd pls pairs i pl, type := pl.type, lineNumber := lineNumber } ::
      emitRows wd pls pairs rest (i + 1)
        (if pl.type == .nochange || pl.type == .add then lineNumber + 1 else lineNumber)

/-- Decimal digits of a natural number, most significant first; fuel-based
recursion so that the kernel can evaluate it (the fuel argument strictly
dominates the number). -/
def decimalDigitsAux : Nat → Nat → List Nat
  | 0, _ => []
  | fuel + 1, n => if n < 10 then [n] else decimalDigitsAux fuel (n / 10) ++ [n % 10]

/-- Decimal digits of a natural number, most significant first. -/
def decimalDigits (n : Nat) : List Nat := decimalDigitsAux (n + 1) n

/-- The character of one decimal digit. -/
def digitChar (d : Nat) : Char := Char.ofNat (48 + d)

/-- JavaScript Number.prototype.toString for the natural numbers used as
line numbers: the decimal representation. -/
def toDecimal (n : Nat) : Str := (decimalDigits n).map digitChar

/-- JavaScript String.prototype.padStart with the default space padding:
left-pad the string with spaces up to the given width. -/
def padStart (s : Str) (width : Nat) : Str :=
  List.replicate (width - s.length) ' ' ++ s

/-- The formatDiff function of the StructuredDiff component: classify the
raw lines, compute the line pairs, emit one row per line with the running
line number starting at startingLineNumber, then left-pad every line
number to the width of the largest line number of the hunk.  The fold
models Math.max over the collected line numbers (all of them are
non-negative, and on an empty hunk the width is applied to no row). -/
def formatDiff (wd : Str → Str → List WordDiffPart) (lines : List Str)
    (startingLineNumber : Nat) : List DisplayRow :=
  let processedLines := lines.map processLine
  let linePairs := findPairs processedLines
  let result := emitRows wd processedLines linePairs processedLines 0 startingLineNumber
  let maxLineNumber := (result.map (·.lineNumber)).foldl max 0
  let maxWidth := (toDecimal maxLineNumber).length
  result.map fun r =>
    { lineNumberText := padStart (toDecimal r.lineNumber) maxWidth,
      lineNumber := r.lineNumber, type := r.type, code := r.code }

/-- The StructuredDiff component applied to one hunk: formatDiff on the
hunk's lines starting at the hunk's oldStart. -/
def structuredDiff (wd : Str → Str → List WordDiffPart) (patch : Hunk) :
    List DisplayRow :=
  formatDiff wd patch.lines patch.oldStart

/-- One element of the FileEditPreview output: either the block of rows of
one hunk or the ellipsis separator box rendered between hunks. -/
inductive OutputItem
  | hunkBlock (rows : List DisplayRow)
  | ellipsis
  deriving DecidableEq, Repr

/-- The FileEditPreview component: for each hunk (with its index) emit the
hunk's block, followed by the ellipsis separator whenever the hunk is not
the last one. -/
def fileEditPreview (wd : Str → Str → List WordDiffPart) (hunks : List Hunk) :
    List OutputItem :=
  (hunks.enum.map fun ip =>
    if ip.1 < hunks.length - 1 then
      [OutputItem.hunkBlock (structuredDiff wd ip.2), OutputItem.ellipsis]
    else
      [OutputItem.hunkBlock (structuredDiff wd ip.2)]).flatten

/-- Modelled from the spec: the external word-diff collaborator
diffWordsWithSpace is not part of this repository; this is a minimal
instance of the contract of spec section 4.3 (parts marked removed occur
only in the old reconstruction, parts marked added only in the new one),
used to instantiate the word-diff parameter on concrete inputs. -/
def wordDiffNaive (oldLine newLine : Str) : List WordDiffPart :=
  if oldLine = newLine then [{ value := oldLine }]
  else [{ value := oldLine, removed := true }, { value := newLine, added := true }]

/-- The number of lines after which the running line number is
incremented: the nochange and add lines. -/
def countInc (pls : List ProcessedLine) : Nat :=
  (pls.filter fun pl => pl.type == .nochange || pl.type == .add).length

/-! ### Generic list lemmas -/

theorem takeWhile_length_eq {α : Type} {p : α → Bool} :
    ∀ (l : List α) (k : Nat), k ≤ l.length →
      (∀ m x, m < k → l[m]? = some x → p x = true) →
      (∀ x, l[k]? = some x → p x = false) →
      (l.takeWhile p).length = k := by
  intro l
  induction l with
  | nil =>
    intro k hk _ _
    simp only [List.length_nil, Nat.le_zero] at hk
    simp [hk]
  | cons a t ih =>
    intro k hk hall hend
    cases k with
    | zero =>
      have ha := hend a (by simp)
      simp [List.takeWhile_cons, ha]
    | succ k =>
      have ha := hall 0 a (Nat.succ_pos k) (by simp)
      rw [List.takeWhile_cons, if_pos ha]
      simp only [List.length_cons, Nat.succ_eq_add_one, Nat.add_left_inj]
      exact ih k (by simpa using hk)
        (fun m x hm hx => hall (m + 1) x (by omega) (by simpa using hx))
        (fun x hx => hend x (by simpa using hx))

theorem takeWhile_prop_of_lt {α : Type} {p : α → Bool} :
    ∀ (l : List α) (m : Nat) (x : α), m < (l.takeWhile p).length →
      l[m]? = some x → p x = true := by
  intro l
  induction l with
  | nil => simp
  | cons a t ih =>
    intro m x hm hx
    by_cases hpa : p a
    · rw [List.takeWhile_cons, if_pos hpa] at hm
      cases m with
      | zero =>
        simp only [List.getElem?_cons_zero, Option.some.injEq] at hx
        rw [← hx]; exact hpa
      | succ m =>
        simp only [List.getElem?_cons_succ] at hx
        exact ih m x (by simpa using hm) hx
    · rw [List.takeWhile_cons, if_neg hpa] at hm
      simp at hm

theorem init_le_foldl_max (l : List Nat) : ∀ a : Nat, a ≤ l.foldl max a := by
  induction l with
  | nil => simp
  | cons b t ih =>
    intro a
    rw [List.foldl_cons]
    calc a ≤ max a b := Nat.le_max_left a b
      _ ≤ t.foldl max (max a b) := ih (max a b)

theorem le_foldl_max (l : List Nat) : ∀ (a x : Nat), x ∈ l → x ≤ l.foldl max a := by
  induction l with
  | nil => simp
  | cons b t ih =>
    intro a x hx
    rw [List.foldl_cons]
    rcases List.mem_cons.mp hx with h | h
    · subst h
      calc x ≤ max a x := Nat.le_max_right a x
        _ ≤ t.foldl max (max a x) := init_le_foldl_max t (max a x)
    · exact ih (max a b) x h

theorem foldl_max_le (l : List Nat) : ∀ (a b : Nat), a ≤ b → (∀ x ∈ l, x ≤ b) →
    l.foldl max a ≤ b := by
  induction l with
  | nil => simp
  | cons c t ih =>
    intro a b hab hall
    rw [List.foldl_cons]
    exact ih (max a c) b (max_le hab (hall c (List.mem_cons_self c t)))
      (fun x hx => hall x (List.mem_cons_of_mem c hx))

/-! ### Decimal representation lemmas -/

theorem decimalDigitsAux_length : ∀ (fuel n : Nat), n < fuel →
    (decimalDigitsAux fuel n).length = Nat.log 10 n + 1 := by
  intro fuel
  induction fuel with
  | zero => omega
  | succ fuel ih =>
    intro n hn
    rw [decimalDigitsAux]
    by_cases h : n < 10
    · rw [if_pos h]
      simp [Nat.log_of_lt h]
    · rw [if_neg h]
      have h10 : 10 ≤ n := by omega
      have hdiv : n / 10 < fuel :=
        Nat.lt_of_lt_of_le (Nat.div_lt_self (by omega) (by omega)) (by omega)
      rw [List.length_append, ih (n / 10) hdiv, Nat.log_div_base]
      have hpos : 0 < Nat.log 10 n := Nat.log_pos (by omega) h10
      simp
      omega

theorem decimalDigits_length (n : Nat) : (decimalDigits n).length = Nat.log 10 n + 1 :=
  decimalDigitsAux_length (n + 1) n (Nat.lt_succ_self n)

theorem toDecimal_length (n : Nat) : (toDecimal n).length = Nat.log 10 n + 1 := by
  simp [toDecimal, decimalDigits_length]

theorem toDecimal_length_mono {a b : Nat} (h : a ≤ b) :
    (toDecimal a).length ≤ (toDecimal b).length := by
  rw [toDecimal_length, toDecimal_length]
  exact Nat.add_le_add_right (Nat.log_mono_right h) 1

theorem padStart_length (s : Str) (w : Nat) : (padStart s w).length = max w s.length := by
  simp [padStart]
  omega

/-! ### Lemmas about the line-number increment count -/

theorem countInc_cons (pl : ProcessedLine) (l : List ProcessedLine) :
    countInc (pl :: l) =
      (if pl.type == .nochange || pl.type == .add then 1 else 0) + countInc l := by
  simp only [countInc, List.filter_cons]
  by_cases h : (pl.type == .nochange || pl.type == .add) = true
  · simp [h, Nat.add_comm]
  · simp [h]

theorem countInc_take_succ {pls : List ProcessedLine} {k : Nat} {pl : ProcessedLine}
    (h : pls[k]? = some pl) :
    countInc (pls.take (k + 1)) =
      countInc (pls.take k) +
        (if pl.type == .nochange || pl.type == .add then 1 else 0) := by
  rw [List.take_succ, h]
  simp only [countInc, List.filter_append, List.length_append, Option.toList_some]
  by_cases hp : (pl.type == .nochange || pl.type == .add) = true
  · simp [hp]
  · simp [hp]

theorem countInc_take_le (l : List ProcessedLine) (m : Nat) :
    countInc (l.take m) ≤ countInc l := by
  induction l generalizing m with
  | nil => simp [countInc]
  | cons a t ih =>
    cases m with
    | zero => simp [countInc]
    | succ m =>
      rw [List.take_succ_cons, countInc_cons, countInc_cons]
      exact Nat.add_le_add_left (ih m) _

theorem countInc_take_mono {pls : List ProcessedLine} {m m' : Nat} (h : m ≤ m') :
    countInc (pls.take m) ≤ countInc (pls.take m') := by
  have heq : pls.take m = (pls.take m').take m := by
    rw [List.take_take, min_eq_left h]
  rw [heq]
  exact countInc_take_le _ _

theorem countInc_take_eq_of_removes {pls : List ProcessedLine} {i : Nat} :
    ∀ {j : Nat}, i ≤ j →
      (∀ k x, i ≤ k → k < j → pls[k]? = some x → x.type = .remove) →
      countInc (pls.take j) = countInc (pls.take i) := by
  intro j
  induction j with
  | zero =>
    intro hij _
    have hi0 : i = 0 := by omega
    rw [hi0]
  | succ j ih =>
    intro hij hall
    by_cases hji : i = j + 1
    · rw [hji]
    · have hij' : i ≤ j := by omega
      cases hx : pls[j]? with
      | none =>
        have hlen : pls.length ≤ j := by
          simpa using List.getElem?_eq_none_iff.mp hx
        have h1 : pls.take (j + 1) = pls := List.take_of_length_le (by omega)
        have h2 : pls.take j = pls := List.take_of_length_le hlen
        calc countInc (pls.take (j + 1)) = countInc (pls.take j) := by rw [h1, h2]
          _ = countInc (pls.take i) :=
            ih hij' (fun k y hk hk' hy => hall k y hk (by omega) hy)
      | some x =>
        have hrem := hall j x hij' (by omega) hx
        rw [countInc_take_succ hx]
        have hb : (x.type == LineType.nochange || x.type == LineType.add) = false := by
          rw [hrem]; decide
        rw [hb, if_neg (by simp), Nat.add_zero]
        exact ih hij' (fun k y hk hk' hy => hall k y hk (by omega) hy)

/-! ### Lemmas about the pairing scan -/

theorem le_skipRemoves (pls : List ProcessedLine) (j : Nat) : j ≤ skipRemoves pls j :=
  Nat.le_add_right j _

theorem skipRemoves_eq {pls : List ProcessedLine} {j t : Nat}
    (hjt : j ≤ t) (htlen : t ≤ pls.length)
    (hall : ∀ k x, j ≤ k → k < t → pls[k]? = some x → x.type = .remove)
    (hstop : ∀ x, pls[t]? = some x → x.type ≠ .remove) :
    skipRemoves pls j = t := by
  unfold skipRemoves
  have hlen : (pls.drop j).length = pls.length - j := List.length_drop j pls
  have hk := takeWhile_length_eq (p := fun pl => pl.type == LineType.remove)
    (pls.drop j) (t - j)
    (by omega)
    (fun m x hm hx => by
      rw [List.getElem?_drop] at hx
      have := hall (j + m) x (by omega) (by omega) hx
      simp [this])
    (fun x hx => by
      rw [List.getElem?_drop] at hx
      have hjt' : j + (t - j) = t := by omega
      rw [hjt'] at hx
      have := hstop x hx
      simpa using this)
  rw [hk]
  omega

theorem skipRemoves_removes {pls : List ProcessedLine} {j k : Nat}
    (hjk : j ≤ k) (hk : k < skipRemoves pls j) :
    ∀ x, pls[k]? = some x → x.type = .remove := by
  intro x hx
  unfold skipRemoves at hk
  have hm : k - j < ((pls.drop j).takeWhile (fun pl => pl.type == LineType.remove)).length := by
    omega
  have hget : (pls.drop j)[k - j]? = some x := by
    rw [List.getElem?_drop]
    have : j + (k - j) = k := by omega
    rw [this]
    exact hx
  have := takeWhile_prop_of_lt (pls.drop j) (k - j) x hm hget
  simpa using this

/-! ### Lemmas about the pairing loop body -/

theorem pairAt_intro {pls : List ProcessedLine} {i j : Nat} {pli plj : ProcessedLine}
    (hi : pls[i]? = some pli) (hremi : pli.type = .remove)
    (hskip : skipRemoves pls (i + 1) = j)
    (hj : pls[j]? = some plj) (haddj : plj.type = .add) :
    pairAt pls i = some ⟨i, j⟩ := by
  unfold pairAt
  rw [List.getD_eq_getElem?_getD, hi]
  simp only [Option.getD_some, hremi, beq_self_eq_true, if_true]
  rw [hskip, hj]
  simp [haddj]

theorem pairAt_elim {pls : List ProcessedLine} {i : Nat} {y : LinePair}
    (h : pairAt pls i = some y) :
    ∃ pli plj, pls[i]? = some pli ∧ pli.type = .remove ∧
      y = ⟨i, skipRemoves pls (i + 1)⟩ ∧ pls[y.add]? = some plj ∧ plj.type = .add := by
  unfold pairAt at h
  by_cases hrem : ((pls.getD i default).type == LineType.remove) = true
  · rw [if_pos hrem] at h
    cases hget : pls[i]? with
    | none =>
      exfalso
      rw [List.getD_eq_getElem?_getD, hget] at hrem
      revert hrem
      decide
    | some pli =>
      have hremi : pli.type = .remove := by
        rw [List.getD_eq_getElem?_getD, hget] at hrem
        simpa using hrem
      split at h
      case _ plj hj =>
        by_cases hadd : (plj.type == LineType.add) = true
        · rw [if_pos hadd] at h
          cases h
          exact ⟨pli, plj, rfl, hremi, rfl, hj, by simpa using hadd⟩
        · rw [if_neg hadd] at h; cases h
      case _ hj => cases h
  · rw [if_neg hrem] at h; cases h

theorem mem_findPairs {pls : List ProcessedLine} {y : LinePair} :
    y ∈ findPairs pls ↔ ∃ i, i < pls.length ∧ pairAt pls i = some y := by
  simp [findPairs, List.mem_filterMap, List.mem_range]

/-! ### Locating the first matching pair in the pair list -/

theorem find?_filterMap_range {β : Type} (n r : Nat) (f : Nat → Option β)
    (q : β → Bool) (x : β) (hr : r < n) (hf : f r = some x) (hq : q x = true)
    (hearlier : ∀ i y, i < r → f i = some y → q y = false) :
    ((List.range n).filterMap f).find? q = some x := by
  have hn : r + (n - r) = n := by omega
  have hsplit : List.range n = List.range r ++ (List.range (n - r)).map (r + ·) := by
    rw [← hn, List.range_add]
    simp
  rw [hsplit, List.filterMap_append, List.find?_append]
  have h1 : ((List.range r).filterMap f).find? q = none := by
    rw [List.find?_eq_none]
    intro y hy
    rw [List.mem_filterMap] at hy
    obtain ⟨i, hi, hfi⟩ := hy
    rw [List.mem_range] at hi
    simp [hearlier i y hi hfi]
  rw [h1]
  obtain ⟨m, hm⟩ : ∃ m, n - r = m + 1 := ⟨n - r - 1, by omega⟩
  rw [hm, List.range_succ_eq_map, List.map_cons, List.filterMap_cons]
  simp only [Nat.add_zero, hf]
  simp [List.find?_cons, hq]

/-! ### Characterization of the emission loop -/

theorem emitRows_length (wd : Str → Str → List WordDiffPart)
    (pls : List ProcessedLine) (pairs : List LinePair) :
    ∀ (rest : List ProcessedLine) (i ln : Nat),
      (emitRows wd pls pairs rest i ln).length = rest.length := by
  intro rest
  induction rest with
  | nil => intro i ln; rfl
  | cons pl rest ih => intro i ln; simp [emitRows, ih]

theorem emitRows_getElem? (wd : Str → Str → List WordDiffPart)
    (pls : List ProcessedLine) (pairs : List LinePair) :
    ∀ (rest : List ProcessedLine) (i ln m : Nat),
      (emitRows wd pls pairs rest i ln)[m]? =
        (rest[m]?).map fun pl =>
          { code := mkRowCode wd pls pairs (i + m) pl, type := pl.type,
            lineNumber := ln + countInc (rest.take m) } := by
  intro rest
  induction rest with
  | nil => intro i ln m; simp [emitRows]
  | cons pl rest ih =>
    intro i ln m
    cases m with
    | zero =>
      simp [emitRows, countInc]
    | succ m =>
      rw [emitRows, List.getElem?_cons_succ, ih, List.getElem?_cons_succ]
      cases h : rest[m]? with
      | none => simp
      | some pl' =>
        simp only [Option.map_some']
        have harith : i + 1 + m = i + (m + 1) := by omega
        rw [harith, List.take_succ_cons, countInc_cons]
        by_cases hp : (pl.type == LineType.nochange || pl.type == LineType.add) = true
        · rw [if_pos hp, if_pos hp]
          have : ln + 1 + countInc (rest.take m) = ln + (1 + countInc (rest.take m)) := by
            omega
          rw [this]
        · rw [if_neg hp, if_neg hp]
          have : ln + countInc (rest.take m) = ln + (0 + countInc (rest.take m)) := by
            omega
          rw [this]

/-! ### Characterization of formatDiff -/

theorem formatDiff_eq (wd : Str → Str → List WordDiffPart) (lines : List Str)
    (start : Nat) :
    formatDiff wd lines start =
      (emitRows wd (lines.map processLine) (findPairs (lines.map processLine))
          (lines.map processLine) 0 start).map
        fun r =>
          { lineNumberText := padStart (toDecimal r.lineNumber)
              ((toDecimal (((emitRows wd (lines.map processLine)
                  (findPairs (lines.map processLine)) (lines.map processLine) 0
                  start).map (·.lineNumber)).foldl max 0)).length),
            lineNumber := r.lineNumber, type := r.type, code := r.code } := rfl

theorem formatDiff_length (wd : Str → Str → List WordDiffPart) (lines : List Str)
    (start : Nat) : (formatDiff wd lines start).length = lines.length := by
  rw [formatDiff_eq, List.length_map, emitRows_length, List.length_map]

theorem formatDiff_row (wd : Str → Str → List WordDiffPart) {lines : List Str}
    (start : Nat) {m : Nat} {pl : ProcessedLine}
    (h : (lines.map processLine)[m]? = some pl) :
    ∃ r, (formatDiff wd lines start)[m]? = some r ∧ r.type = pl.type ∧
      r.lineNumber = start + countInc ((lines.map processLine).take m) ∧
      r.code = mkRowCode wd (lines.map processLine)
        (findPairs (lines.map processLine)) m pl := by
  rw [formatDiff_eq, List.getElem?_map, emitRows_getElem?, h]
  refine ⟨_, rfl, rfl, rfl, ?_⟩
  rw [Nat.zero_add]

theorem formatDiff_row_type (wd : Str → Str → List WordDiffPart) {lines : List Str}
    (start : Nat) {m : Nat} {r : DisplayRow}
    (h : (formatDiff wd lines start)[m]? = some r) :
    ∃ pl, (lines.map processLine)[m]? = some pl ∧ r.type = pl.type ∧
      r.lineNumber = start + countInc ((lines.map processLine).take m) := by
  cases hpl : (lines.map processLine)[m]? with
  | none =>
    exfalso
    have hlen : (lines.map processLine).length ≤ m := by
      simpa using List.getElem?_eq_none_iff.mp hpl
    have : (formatDiff wd lines start)[m]? = none := by
      apply List.getElem?_eq_none_iff.mpr
      rw [formatDiff_length]
      simpa using hlen
    rw [this] at h
    cases h
  | some pl =>
    obtain ⟨r', hr', htype, hln, _⟩ := formatDiff_row wd start hpl
    rw [hr'] at h
    cases h
    exact ⟨pl, rfl, htype, hln⟩

theorem lt_length_of_getElem?_eq_some {α : Type} {l : List α} {n : Nat} {x : α}
    (h : l[n]? = some x) : n < l.length := by
  by_contra hn
  rw [List.getElem?_eq_none_iff.mpr (by omega)] at h
  cases h

/-! ### The claims -/

/-- C8: for every hunk, the number of display rows emitted equals the
number of its classified lines (one row per line regardless of pairing),
and an empty hunk yields an empty row sequence. -/
theorem rows_one_per_line (wd : Str → Str → List WordDiffPart) (lines : List Str)
    (start : Nat) :
    (formatDiff wd lines start).length = lines.length ∧
    (lines = [] → formatDiff wd lines start = []) := by
  refine ⟨formatDiff_length wd lines start, ?_⟩
  rintro rfl
  rfl

/-- Witness for C8 at the four-line hunk of the spec example and at the
empty hunk. -/
theorem rows_one_per_line_witness :
    (formatDiff wordDiffNaive [str " context", str "-a", str "-b", str "+c"] 1).length = 4 ∧
    formatDiff wordDiffNaive [] 1 = [] :=
  ⟨(rows_one_per_line wordDiffNaive [str " context", str "-a", str "-b", str "+c"] 1).1,
   (rows_one_per_line wordDiffNaive [] 1).2 rfl⟩

/-- C9: the classifier is total and non-failing; a line starting with a
plus is Added with the marker replaced by a space, a line starting with a
minus is Removed with the same substitution, anything else (including a
line with no recognized marker) is Context with unchanged text. -/
theorem classifier_total (code : Str) :
    (∀ rest, code = '+' :: rest →
      processLine code = { code := ' ' :: rest, type := .add, originalCode := code }) ∧
    (∀ rest, code = '-' :: rest →
      processLine code = { code := ' ' :: rest, type := .remove, originalCode := code }) ∧
    ((∀ rest, code ≠ '+' :: rest) → (∀ rest, code ≠ '-' :: rest) →
      processLine code = { code := code, type := .nochange, originalCode := code }) := by
  refine ⟨?_, ?_, ?_⟩
  · rintro rest rfl
    simp [processLine, startsWith]
  · rintro rest rfl
    simp [processLine, startsWith]
  · intro hplus hminus
    cases code with
    | nil => rfl
    | cons c rest =>
      have hc1 : c ≠ '+' := fun hc => hplus rest (by rw [hc])
      have hc2 : c ≠ '-' := fun hc => hminus rest (by rw [hc])
      simp [processLine, startsWith, hc1, hc2]

/-- Witness for C9 on one line of each kind, including a marker-less line
and the empty line. -/
theorem classifier_total_witness :
    processLine (str "+x") =
      { code := str " x", type := .add, originalCode := str "+x" } ∧
    processLine (str "-y") =
      { code := str " y", type := .remove, originalCode := str "-y" } ∧
    processLine (str "z") =
      { code := str "z", type := .nochange, originalCode := str "z" } ∧
    processLine (str "") =
      { code := str "", type := .nochange, originalCode := str "" } :=
  ⟨(classifier_total (str "+x")).1 (str "x") rfl,
   (classifier_total (str "-y")).2.1 (str "y") rfl,
   (classifier_total (str "z")).2.2
     (fun _ h => by injection h with h1 _; exact absurd h1 (by decide))
     (fun _ h => by injection h with h1 _; exact absurd h1 (by decide)),
   (classifier_total (str "")).2.2
     (fun _ h => List.noConfusion h) (fun _ h => List.noConfusion h)⟩

/-- C6: every pairing relation links a Removed line to an Added line that
appears later in the same hunk, within bounds, with only Removed lines
strictly in between. -/
theorem pair_shape (pls : List ProcessedLine) (pair : LinePair)
    (h : pair ∈ findPairs pls) :
    (∃ pli, pls[pair.remove]? = some pli ∧ pli.type = .remove) ∧
    (∃ plj, pls[pair.add]? = some plj ∧ plj.type = .add) ∧
    pair.remove < pair.add ∧ pair.add < pls.length ∧
    (∀ k x, pair.remove < k → k < pair.add → pls[k]? = some x →
      x.type = .remove) := by
  obtain ⟨i, hi, hpa⟩ := mem_findPairs.mp h
  obtain ⟨pli, plj, hget, hremi, hy, hgetj, haddj⟩ := pairAt_elim hpa
  subst hy
  refine ⟨⟨pli, hget, hremi⟩, ⟨plj, hgetj, haddj⟩, ?_, ?_, ?_⟩
  · exact Nat.lt_of_lt_of_le (Nat.lt_succ_self i) (le_skipRemoves pls (i + 1))
  · exact lt_length_of_getElem?_eq_some hgetj
  · intro k x hk hk' hx
    have hk2 : i < k := hk
    have hk3 : k < skipRemoves pls (i + 1) := hk'
    exact skipRemoves_removes (by omega) hk3 x hx

/-- Witness for C6 on a concrete hunk with one removed run. -/
theorem pair_shape_witness :
    (1 : Nat) < 3 ∧
    (3 : Nat) < ([str " x", str "-a", str "-b", str "+c"].map processLine).length := by
  have h := pair_shape ([str " x", str "-a", str "-b", str "+c"].map processLine)
    ⟨1, 3⟩ (by decide)
  exact ⟨h.2.2.1, h.2.2.2.1⟩

/-- C1 counterexample: on a hunk with oldStart 1 and newStart 5 holding a
single context line, the emitted row records line number 1 (the oldStart
value), not 5 (the position the line holds in the new file), so the
running counter is not initialized to newStart. -/
theorem counter_init_not_newStart :
    ((structuredDiff wordDiffNaive
        { oldStart := 1, newStart := 5, lines := [str " x"] }).map (·.lineNumber) = [1]) ∧
    ¬ ((structuredDiff wordDiffNaive
        { oldStart := 1, newStart := 5, lines := [str " x"] }).map (·.lineNumber) = [5]) := by
  decide

/-- C1 amended: the running counter is initialized to the hunk's oldStart;
every row records oldStart plus the number of Context and Added rows
preceding it (so Context and Added rows show old-start-based positions,
advancing by one per Context or Added row). -/
theorem counter_init_oldStart (wd : Str → Str → List WordDiffPart) (patch : Hunk)
    (m : Nat) (r : DisplayRow)
    (h : (structuredDiff wd patch)[m]? = some r) :
    r.lineNumber = patch.oldStart + countInc ((patch.lines.map processLine).take m) := by
  obtain ⟨pl, _, _, hln⟩ :=
    formatDiff_row_type wd patch.oldStart h
  exact hln

/-- Witness for C1 amended on a hunk whose oldStart and newStart differ. -/
theorem counter_init_oldStart_witness :
    ((structuredDiff wordDiffNaive
        { oldStart := 7, newStart := 50, lines := [str " x", str "+y"] })[1]?).map
      (·.lineNumber) = some 8 := by
  cases hget : (structuredDiff wordDiffNaive
      { oldStart := 7, newStart := 50, lines := [str " x", str "+y"] })[1]? with
  | none => exact absurd hget (by decide)
  | some r =>
    have h := counter_init_oldStart wordDiffNaive
      { oldStart := 7, newStart := 50, lines := [str " x", str "+y"] } 1 r hget
    rw [Option.map_some', h]
    decide

/-- C2 is violated by the code: on the paired lines of the hunk
["-old", "+new"], the removed row's segments include a segment carrying
the text of a word-diff part with added = true (rendered with the base
style instead of being excluded), and symmetrically the added row's
segments include the removed part's text. -/
theorem paired_rows_keep_opposite_parts :
    ((formatDiff wordDiffNaive [str "-old", str "+new"] 1).map (·.code) =
      [[Segment.marker (str "-"), Segment.emphRemoved (str " old"),
        Segment.plain (str " new")],
       [Segment.marker (str "+"), Segment.plain (str " old"),
        Segment.emphAdded (str " new")]]) ∧
    (∃ part ∈ wordDiffNaive (str " old") (str " new"), part.added = true ∧
      ∀ r ∈ formatDiff wordDiffNaive [str "-old", str "+new"] 1,
        r.type = LineType.remove → Segment.plain part.value ∈ r.code) ∧
    (∃ part ∈ wordDiffNaive (str " old") (str " new"), part.removed = true ∧
      ∀ r ∈ formatDiff wordDiffNaive [str "-old", str "+new"] 1,
        r.type = LineType.add → Segment.plain part.value ∈ r.code) := by
  decide

/-- C4: within a hunk the raw line numbers are monotonically
non-decreasing, a Context or Added row is exactly one greater than the
previous Context or Added row, and a Removed row equals the next Context
or Added row. -/
theorem lineNumber_rules (wd : Str → Str → List WordDiffPart) (lines : List Str)
    (start : Nat) :
    (∀ (m m' : Nat) (r r' : DisplayRow), m ≤ m' →
      (formatDiff wd lines start)[m]? = some r →
      (formatDiff wd lines start)[m']? = some r' →
      r.lineNumber ≤ r'.lineNumber) ∧
    (∀ (m m' : Nat) (r r' : DisplayRow), m < m' →
      (formatDiff wd lines start)[m]? = some r →
      (formatDiff wd lines start)[m']? = some r' →
      r.type ≠ .remove → r'.type ≠ .remove →
      (∀ (k : Nat) (q : DisplayRow), m < k → k < m' →
        (formatDiff wd lines start)[k]? = some q → q.type = .remove) →
      r'.lineNumber = r.lineNumber + 1) ∧
    (∀ (m m' : Nat) (r r' : DisplayRow), m < m' →
      (formatDiff wd lines start)[m]? = some r →
      (formatDiff wd lines start)[m']? = some r' →
      r.type = .remove → r'.type ≠ .remove →
      (∀ (k : Nat) (q : DisplayRow), m < k → k < m' →
        (formatDiff wd lines start)[k]? = some q → q.type = .remove) →
      r'.lineNumber = r.lineNumber) := by
  have hmid : ∀ m m' : Nat, (∀ (k : Nat) (q : DisplayRow), m < k → k < m' →
      (formatDiff wd lines start)[k]? = some q → q.type = .remove) →
      ∀ (k : Nat) (x : ProcessedLine), m < k → k < m' →
        (lines.map processLine)[k]? = some x → x.type = .remove := by
    intro m m' hbetween k x hk hk' hx
    obtain ⟨q, hq, hqt, _, _⟩ := formatDiff_row wd start hx
    rw [← hqt]
    exact hbetween k q hk hk' hq
  refine ⟨?_, ?_, ?_⟩
  · intro m m' r r' hmm' h h'
    obtain ⟨pl, hpl, _, hln⟩ := formatDiff_row_type wd start h
    obtain ⟨pl', hpl', _, hln'⟩ := formatDiff_row_type wd start h'
    rw [hln, hln']
    exact Nat.add_le_add_left (countInc_take_mono hmm') start
  · intro m m' r r' hmm' h h' hrt hrt' hbetween
    obtain ⟨pl, hpl, htype, hln⟩ := formatDiff_row_type wd start h
    obtain ⟨pl', hpl', _, hln'⟩ := formatDiff_row_type wd start h'
    have hb : (pl.type == LineType.nochange || pl.type == LineType.add) = true := by
      cases hpt : pl.type
      · rfl
      · exact absurd (htype.trans hpt) hrt
      · rfl
    have hstep : countInc ((lines.map processLine).take (m + 1)) =
        countInc ((lines.map processLine).take m) + 1 := by
      rw [countInc_take_succ hpl, hb, if_pos rfl]
    have heq : countInc ((lines.map processLine).take m') =
        countInc ((lines.map processLine).take (m + 1)) :=
      countInc_take_eq_of_removes (by omega)
        (fun k x hk hk' hx => hmid m m' hbetween k x (by omega) (by omega) hx)
    rw [hln, hln', heq, hstep]
    omega
  · intro m m' r r' hmm' h h' hrt hrt' hbetween
    obtain ⟨pl, hpl, htype, hln⟩ := formatDiff_row_type wd start h
    obtain ⟨pl', hpl', _, hln'⟩ := formatDiff_row_type wd start h'
    have heq : countInc ((lines.map processLine).take m') =
        countInc ((lines.map processLine).take m) :=
      countInc_take_eq_of_removes (by omega)
        (fun k x hk hk' hx => by
          by_cases hkm : k = m
          · subst hkm
            rw [hpl] at hx
            cases hx
            rw [← htype]
            exact hrt
          · exact hmid m m' hbetween k x (by omega) (by omega) hx)
    rw [hln, hln', heq]

/-- Witness for C4 on the spec example hunk [" context", "-a", "-b", "+c"]
with oldStart 1: the removed row at index 1 shows the same number as the
next added row at index 3, and the added row at 3 shows one more than the
context row at 0. -/
theorem lineNumber_rules_witness :
    ((formatDiff wordDiffNaive [str " context", str "-a", str "-b", str "+c"] 1)[3]?).map
      (·.lineNumber) =
      ((formatDiff wordDiffNaive [str " context", str "-a", str "-b", str "+c"] 1)[1]?).map
      (·.lineNumber) ∧
    ((formatDiff wordDiffNaive [str " context", str "-a", str "-b", str "+c"] 1)[3]?).map
      (·.lineNumber) =
      ((formatDiff wordDiffNaive [str " context", str "-a", str "-b", str "+c"] 1)[0]?).map
      (fun r => r.lineNumber + 1) := by
  cases h0 : (formatDiff wordDiffNaive
      [str " context", str "-a", str "-b", str "+c"] 1)[0]? with
  | none => exact absurd h0 (by decide)
  | some r0 =>
  cases h1 : (formatDiff wordDiffNaive
      [str " context", str "-a", str "-b", str "+c"] 1)[1]? with
  | none => exact absurd h1 (by decide)
  | some r1 =>
  cases h3 : (formatDiff wordDiffNaive
      [str " context", str "-a", str "-b", str "+c"] 1)[3]? with
  | none => exact absurd h3 (by decide)
  | some r3 =>
  have e1 : r1.type = LineType.remove := by
    have := h1.symm.trans (by decide :
      (formatDiff wordDiffNaive [str " context", str "-a", str "-b", str "+c"] 1)[1]? =
        some { lineNumberText := str "2", lineNumber := 2, type := .remove,
               code := [.marker (str "-"), .emphRemoved (str " a"),
                        .plain (str " c")] })
    cases this
    rfl
  have e0 : r0.type = LineType.nochange := by
    have := h0.symm.trans (by decide :
      (formatDiff wordDiffNaive [str " context", str "-a", str "-b", str "+c"] 1)[0]? =
        some { lineNumberText := str "1", lineNumber := 1, type := .nochange,
               code := [.plain (str "  context")] })
    cases this
    rfl
  have e3 : r3.type = LineType.add := by
    have := h3.symm.trans (by decide :
      (formatDiff wordDiffNaive [str " context", str "-a", str "-b", str "+c"] 1)[3]? =
        some { lineNumberText := str "2", lineNumber := 2, type := .add,
               code := [.marker (str "+"), .plain (str " a"),
                        .emphAdded (str " c")] })
    cases this
    rfl
  have hbetween : ∀ k q, (1 : Nat) < k → k < 3 →
      (formatDiff wordDiffNaive [str " context", str "-a", str "-b", str "+c"] 1)[k]? =
        some q → q.type = LineType.remove := by
    intro k q hk hk' hq
    have hk2 : k = 2 := by omega
    subst hk2
    have := hq.symm.trans (by decide :
      (formatDiff wordDiffNaive [str " context", str "-a", str "-b", str "+c"] 1)[2]? =
        some { lineNumberText := str "2", lineNumber := 2, type := .remove,
               code := [.marker (str "-"), .emphRemoved (str " b"),
                        .plain (str " c")] })
    cases this
    rfl
  have hbetween03 : ∀ k q, (0 : Nat) < k → k < 3 →
      (formatDiff wordDiffNaive [str " context", str "-a", str "-b", str "+c"] 1)[k]? =
        some q → q.type = LineType.remove := by
    intro k q hk hk' hq
    by_cases hk1 : k = 1
    · subst hk1
      rw [hq] at h1
      cases h1
      exact e1
    · have hk2 : k = 2 := by omega
      subst hk2
      exact hbetween 2 q (by omega) (by omega) hq
  have hrm := (lineNumber_rules wordDiffNaive
    [str " context", str "-a", str "-b", str "+c"] 1).2.2 1 3 r1 r3 (by omega) h1 h3
    e1 (by rw [e3]; decide) hbetween
  have hadd := (lineNumber_rules wordDiffNaive
    [str " context", str "-a", str "-b", str "+c"] 1).2.1 0 3 r0 r3 (by omega) h0 h3
    (by rw [e0]; decide) (by rw [e3]; decide) hbetween03
  constructor
  · rw [Option.map_some', Option.map_some', hrm]
  · rw [Option.map_some', Option.map_some', hadd]

/-- C5: for every non-empty hunk the pad width equals the decimal length
of the maximum raw line number among the hunk's rows, and every row's
line-number string is space-padded on the left to exactly that width. -/
theorem pad_width_uniform (wd : Str → Str → List WordDiffPart) (lines : List Str)
    (start mx : Nat)
    (_hne : formatDiff wd lines start ≠ [])
    (hmax : ((formatDiff wd lines start).map (·.lineNumber)).maximum = some mx) :
    ∀ r ∈ formatDiff wd lines start,
      r.lineNumberText.length = (toDecimal mx).length ∧
      r.lineNumberText = padStart (toDecimal r.lineNumber) ((toDecimal mx).length) := by
  have hsame : (formatDiff wd lines start).map (·.lineNumber) =
      (emitRows wd (lines.map processLine) (findPairs (lines.map processLine))
        (lines.map processLine) 0 start).map (·.lineNumber) := by
    rw [formatDiff_eq, List.map_map]
    exact List.map_congr_left (fun r _ => rfl)
  have hmem : mx ∈ (emitRows wd (lines.map processLine)
      (findPairs (lines.map processLine)) (lines.map processLine) 0
      start).map (·.lineNumber) := by
    rw [← hsame]
    exact List.maximum_mem hmax
  have hub : ∀ x ∈ (emitRows wd (lines.map processLine)
      (findPairs (lines.map processLine)) (lines.map processLine) 0
      start).map (·.lineNumber), x ≤ mx := by
    intro x hx
    rw [← hsame] at hx
    exact List.le_maximum_of_mem hx hmax
  have hfold : ((emitRows wd (lines.map processLine)
      (findPairs (lines.map processLine)) (lines.map processLine) 0
      start).map (·.lineNumber)).foldl max 0 = mx := by
    apply Nat.le_antisymm
    · exact foldl_max_le _ 0 mx (Nat.zero_le mx) hub
    · exact le_foldl_max _ 0 mx hmem
  intro r hr
  rw [formatDiff_eq] at hr
  obtain ⟨raw, hraw, hpad⟩ := List.mem_map.mp hr
  have hln : r.lineNumber = raw.lineNumber := by rw [← hpad]
  have htext : r.lineNumberText =
      padStart (toDecimal raw.lineNumber) ((toDecimal mx).length) := by
    rw [← hpad]
    rw [hfold]
  have hle : raw.lineNumber ≤ mx :=
    hub raw.lineNumber (List.mem_map.mpr ⟨raw, hraw, rfl⟩)
  constructor
  · rw [htext, padStart_length]
    exact Nat.max_eq_left (toDecimal_length_mono hle)
  · rw [htext, hln]

/-- Witness for C5 on the hunk ["-a", "+b", " c"] with oldStart 9: line
numbers are 9, 9, 10, the maximum is 10 with decimal width 2, and the
first row's line-number text is the two-character string " 9". -/
theorem pad_width_uniform_witness :
    (str " 9").length = (toDecimal 10).length ∧
    str " 9" = padStart (toDecimal 9) ((toDecimal 10).length) := by
  have e0 : (formatDiff wordDiffNaive [str "-a", str "+b", str " c"] 9)[0]? =
      some { lineNumberText := str " 9", lineNumber := 9, type := .remove,
             code := [.marker (str "-"), .emphRemoved (str " a"),
                      .plain (str " b")] } := by
    decide
  have hr := List.getElem?_mem e0
  have h := pad_width_uniform wordDiffNaive [str "-a", str "+b", str " c"] 9 10
    (by decide) (by decide) _ hr
  exact ⟨h.1, h.2⟩

/-- C3: a contiguous run of N removed lines immediately followed by an
added line pairs every removed index of the run with that same single
first added index, and each of the N removed rows computes its word diff
against that same added line's text. -/
theorem removedRun_pairsToFirstAdd (wd : Str → Str → List WordDiffPart)
    (lines : List Str) (start r N : Nat)
    (_hN : 0 < N)
    (hrun : ∀ k, r ≤ k → k < r + N →
      ∃ x, (lines.map processLine)[k]? = some x ∧ x.type = .remove)
    (hadd : ∃ y, (lines.map processLine)[r + N]? = some y ∧ y.type = .add) :
    ∀ k, r ≤ k → k < r + N →
      (⟨k, r + N⟩ : LinePair) ∈ findPairs (lines.map processLine) ∧
      ((formatDiff wd lines start)[k]?).map (·.code) =
        some (Segment.marker (str "-") ::
          (wd (((lines.map processLine).getD k default).code)
            (((lines.map processLine).getD (r + N) default).code)).map
            renderRemovedPart) := by
  intro k hk hk'
  obtain ⟨plj, hj, haddt⟩ := hadd
  have hjlen : r + N < (lines.map processLine).length :=
    lt_length_of_getElem?_eq_some hj
  have hskip : skipRemoves (lines.map processLine) (k + 1) = r + N :=
    skipRemoves_eq (by omega) (by omega)
      (fun k' x hk1 hk2 hx => by
        obtain ⟨x', hx', hxt⟩ := hrun k' (by omega) hk2
        rw [hx'] at hx
        cases hx
        exact hxt)
      (fun x hx => by
        rw [hj] at hx
        cases hx
        rw [haddt]
        decide)
  obtain ⟨pli, hi, hremt⟩ := hrun k hk hk'
  have hpair : pairAt (lines.map processLine) k = some ⟨k, r + N⟩ :=
    pairAt_intro hi hremt hskip hj haddt
  refine ⟨mem_findPairs.mpr ⟨k, by omega, hpair⟩, ?_⟩
  have hfind : (findPairs (lines.map processLine)).find?
      (fun p => p.remove == k || p.add == k) = some ⟨k, r + N⟩ := by
    apply find?_filterMap_range (lines.map processLine).length k
      (pairAt (lines.map processLine)) _ _ (by omega) hpair (by simp)
    intro i y hik hiy
    obtain ⟨pli', plj', hi', hremi', hy, hyadd, hyaddt⟩ := pairAt_elim hiy
    subst hy
    have h1 : ¬ (i = k) := by omega
    have h2 : ¬ (skipRemoves (lines.map processLine) (i + 1) = k) := by
      intro hc
      have hyadd2 : (lines.map processLine)[k]? = some plj' := by
        rw [← hc]
        exact hyadd
      rw [hi] at hyadd2
      cases hyadd2
      rw [hremt] at hyaddt
      cases hyaddt
    simp [h1, h2]
  obtain ⟨row, hrow, _, _, hcode⟩ :=
    formatDiff_row wd start hi
  rw [hrow, Option.map_some']
  congr 1
  rw [hcode]
  unfold mkRowCode
  rw [hfind]
  simp

/-- Witness for C3 at the run ["-a", "-b", "+c"]: both removed indices 0
and 1 pair with the added index 2. -/
theorem removedRun_pairsToFirstAdd_witness :
    ((⟨0, 2⟩ : LinePair) ∈ findPairs ([str "-a", str "-b", str "+c"].map processLine)) ∧
    ((⟨1, 2⟩ : LinePair) ∈ findPairs ([str "-a", str "-b", str "+c"].map processLine)) := by
  have h := removedRun_pairsToFirstAdd wordDiffNaive [str "-a", str "-b", str "+c"]
    1 0 2 (by omega)
    (fun k hk hk' => by
      interval_cases k
      · exact ⟨_, rfl, rfl⟩
      · exact ⟨_, rfl, rfl⟩)
    ⟨_, rfl, rfl⟩
  exact ⟨(h 0 (by omega) (by omega)).1, (h 1 (by omega) (by omega)).1⟩

/-- C10: when a run of two or more removed lines starting at the first
removed index r is immediately followed by an added line, the added row's
word diff is computed against the text of the first removed line of the
run (the first pairing relation targeting that added index), not a later
one. -/
theorem addedRow_diffsAgainstFirstRemoved (wd : Str → Str → List WordDiffPart)
    (lines : List Str) (start r N : Nat)
    (hN : 2 ≤ N)
    (hrun : ∀ k, r ≤ k → k < r + N →
      ∃ x, (lines.map processLine)[k]? = some x ∧ x.type = .remove)
    (hadd : ∃ y, (lines.map processLine)[r + N]? = some y ∧ y.type = .add)
    (hfirst : r = 0 ∨
      ∀ x, (lines.map processLine)[r - 1]? = some x → x.type ≠ .remove) :
    ((formatDiff wd lines start)[r + N]?).map (·.code) =
      some (Segment.marker (str "+") ::
        (wd (((lines.map processLine).getD r default).code)
          (((lines.map processLine).getD (r + N) default).code)).map
          renderAddedPart) := by
  obtain ⟨plj, hj, haddt⟩ := hadd
  have hjlen : r + N < (lines.map processLine).length :=
    lt_length_of_getElem?_eq_some hj
  have hskip : skipRemoves (lines.map processLine) (r + 1) = r + N :=
    skipRemoves_eq (by omega) (by omega)
      (fun k' x hk1 hk2 hx => by
        obtain ⟨x', hx', hxt⟩ := hrun k' (by omega) hk2
        rw [hx'] at hx
        cases hx
        exact hxt)
      (fun x hx => by
        rw [hj] at hx
        cases hx
        rw [haddt]
        decide)
  obtain ⟨plr, hri, hremr⟩ := hrun r (Nat.le_refl r) (by omega)
  have hpair : pairAt (lines.map processLine) r = some ⟨r, r + N⟩ :=
    pairAt_intro hri hremr hskip hj haddt
  have hfind : (findPairs (lines.map processLine)).find?
      (fun p => p.remove == (r + N) || p.add == (r + N)) = some ⟨r, r + N⟩ := by
    apply find?_filterMap_range (lines.map processLine).length r
      (pairAt (lines.map processLine)) _ _ (by omega) hpair (by simp)
    intro i y hir hiy
    obtain ⟨pli', plj', hi', hremi', hy, hyadd, hyaddt⟩ := pairAt_elim hiy
    subst hy
    have h1 : ¬ (i = r + N) := by omega
    have h2 : ¬ (skipRemoves (lines.map processLine) (i + 1) = r + N) := by
      intro hc
      rcases hfirst with hr0 | hnotrem
      · omega
      · by_cases hieq : i = r - 1
        · subst hieq
          exact hnotrem pli' hi' hremi'
        · have hlt : i + 1 ≤ r - 1 := by omega
          have hral : r - 1 < skipRemoves (lines.map processLine) (i + 1) := by
            rw [hc]
            omega
          cases hx : (lines.map processLine)[r - 1]? with
          | none =>
            have := List.getElem?_eq_none_iff.mp hx
            omega
          | some x =>
            exact hnotrem x hx (skipRemoves_removes hlt hral x hx)
    simp [h1, h2]
  obtain ⟨row, hrow, _, _, hcode⟩ :=
    formatDiff_row wd start hj
  rw [hrow, Option.map_some']
  congr 1
  rw [hcode]
  unfold mkRowCode
  rw [hfind]
  have hne : ¬ (r = r + N) := by omega
  simp [hne]

/-- Witness for C10 at the run ["-a", "-b", "+c"] with oldStart 1: the
added row's segments are the word diff of the first removed line " a"
against " c", showing " a" (not " b") as the unchanged-side text. -/
theorem addedRow_diffsAgainstFirstRemoved_witness :
    ((formatDiff wordDiffNaive [str "-a", str "-b", str "+c"] 1)[2]?).map (·.code) =
      some [Segment.marker (str "+"), Segment.plain (str " a"),
        Segment.emphAdded (str " c")] := by
  have h := addedRow_diffsAgainstFirstRemoved wordDiffNaive
    [str "-a", str "-b", str "+c"] 1 0 2 (by omega)
    (fun k hk hk' => by
      interval_cases k
      · exact ⟨_, rfl, rfl⟩
      · exact ⟨_, rfl, rfl⟩)
    ⟨_, rfl, rfl⟩
    (Or.inl rfl)
  rw [h]
  decide

theorem fileEditPreview_cons (wd : Str → Str → List WordDiffPart) (h : Hunk)
    (t : List Hunk) :
    fileEditPreview wd (h :: t) =
      (if 0 < t.length then
        [OutputItem.hunkBlock (structuredDiff wd h), OutputItem.ellipsis]
      else [OutputItem.hunkBlock (structuredDiff wd h)]) ++ fileEditPreview wd t := by
  unfold fileEditPreview
  rw [List.enum_cons', List.map_cons, List.flatten_cons, List.map_map]
  have hhead : (if ((0 : Nat), h).1 < (h :: t).length - 1 then
      [OutputItem.hunkBlock (structuredDiff wd ((0 : Nat), h).2), OutputItem.ellipsis]
    else [OutputItem.hunkBlock (structuredDiff wd ((0 : Nat), h).2)]) =
      if 0 < t.length then
        [OutputItem.hunkBlock (structuredDiff wd h), OutputItem.ellipsis]
      else [OutputItem.hunkBlock (structuredDiff wd h)] := by
    simp only [List.length_cons, Nat.add_sub_cancel]
  rw [hhead]
  congr 1
  apply congrArg
  apply List.map_congr_left
  intro ip _
  simp only [Function.comp, Prod.map, id, List.length_cons, Nat.add_sub_cancel]
  by_cases hc : ip.1 + 1 < t.length
  · rw [if_pos hc, if_pos (by omega)]
  · rw [if_neg hc, if_neg (by omega)]

/-- C7: the joined output of a hunk list places exactly one ellipsis
separator between the row blocks of consecutive hunks, none before the
first block or after the last, and a zero-hunk input yields empty output
with no separators: the output is precisely the hunk blocks interspersed
with single separators. -/
theorem separators_between_hunks (wd : Str → Str → List WordDiffPart)
    (hunks : List Hunk) :
    fileEditPreview wd hunks =
      List.intersperse OutputItem.ellipsis
        (hunks.map fun patch => OutputItem.hunkBlock (structuredDiff wd patch)) := by
  induction hunks with
  | nil => rfl
  | cons h t ih =>
    rw [fileEditPreview_cons, ih]
    cases t with
    | nil => rfl
    | cons h' t' =>
      rw [if_pos (by simp)]
      rfl

end OpentuiDiff
